import Mathlib

/-!
Verification of the UDP screen-streaming core of `udp_image_bitmap`.

The definitions below are a shallow embedding of the Rust sources:
  * `src/src-tauri/src/udp_server.rs`  (chunked sender, streaming loop)
  * `src/src-tauri/src/udp_client.rs`  (receive loop, reassembly table)
  * `src/src-tauri/src/frame_pacer.rs` (adaptive frame pacer)
  * `src/src-tauri/src/lib.rs`         (start/stop command handlers)

Machine integers are modelled as `Nat` with explicit `% 2^32` where the code
wraps; `f32` values are modelled exactly as rationals, with round-to-nearest,
ties-to-even rounding (`rnd32`) applied wherever the code performs an `f32`
operation on values in the normal range.  Timestamps (`Instant`) are
milliseconds as `Nat`; `Instant::duration_since` saturates, i.e. truncated
`Nat` subtraction.
-/

namespace UdpImage

/-! ### Big-endian u32 byte layout (`to_be_bytes` / `from_be_bytes`) -/

/-- `u32::to_be_bytes` of `n` (the `as u32` cast is the `% 2^32`). -/
def toBe (n : ℕ) : List ℕ :=
  [n % 2 ^ 32 / 2 ^ 24, n % 2 ^ 24 / 2 ^ 16, n % 2 ^ 16 / 2 ^ 8, n % 2 ^ 8]

/-- `u32::from_be_bytes` on a 4-byte list (receiver, udp_client.rs lines 65-67). -/
def fromBe (bs : List ℕ) : ℕ :=
  match bs with
  | [a, b, c, d] => ((a * 256 + b) * 256 + c) * 256 + d
  | _ => 0

/-! ### Chunking (`data.chunks(CHUNK_SIZE)` in `send_chunked`) -/

/-- `CHUNK_SIZE` from udp_server.rs line 7. -/
def CHUNK_SIZE : ℕ := 8192

/-- Fuel-based splitter (structural recursion so that proofs by `decide`
can evaluate it); the fuel is the list length. -/
def chunksOfAux : ℕ → ℕ → List α → List (List α)
  | 0, _, _ => []
  | _ + 1, _, [] => []
  | f + 1, c, a :: l => (a :: l.take (c - 1)) :: chunksOfAux f c (l.drop (c - 1))

/-- Rust's `slice::chunks c` (for `c ≥ 1`): split a list into consecutive
chunks of size `c`, the final chunk possibly shorter; the empty list yields
no chunks. -/
def chunksOf (c : ℕ) (l : List α) : List (List α) := chunksOfAux l.length c l

/-! ### Sender: `UdpServer::send_chunked` (udp_server.rs lines 163-211) -/

/-- One framed datagram: the 12-byte big-endian header
`(frame_id, chunk_index, total_chunks)` followed by the chunk payload
(udp_server.rs lines 169-173). -/
def mkPacket (fid idx tot : ℕ) (chunk : List ℕ) : List ℕ :=
  toBe fid ++ toBe idx ++ toBe tot ++ chunk

/-- Pair each list element with its index, starting from `i`. -/
def withIdx (i : ℕ) : List α → List (ℕ × α)
  | [] => []
  | a :: l => (i, a) :: withIdx (i + 1) l

/-- `total_chunks = (data.len() + CHUNK_SIZE - 1) / CHUNK_SIZE`
(udp_server.rs line 164). -/
def totalChunks (len : ℕ) : ℕ := (len + CHUNK_SIZE - 1) / CHUNK_SIZE

/-- The first pass of `send_chunked`: transmit the framed chunks in index
order; `send_to` failures are modelled by the oracle `fail` on the chunk
index, and the `?` on `send_to` (line 176) aborts the pass at the first
failure.  Returns the datagrams actually transmitted and whether the pass
completed. -/
def sendFirstPass (fail : ℕ → Bool) (fid tot : ℕ) :
    ℕ → List (List ℕ) → List (List ℕ) × Bool
  | _, [] => ([], true)
  | i, c :: cs =>
    if fail i then ([], false)
    else
      let r := sendFirstPass fail fid tot (i + 1) cs
      (mkPacket fid i tot c :: r.1, r.2)

/-- `UdpServer::send_chunked`: first pass over all chunks, then (when
`REDUNDANT_PACKETS` and `total_chunks > 2`) a best-effort resend of the
first and last chunk whose failures are ignored (lines 184-208).  Returns
the transmitted datagrams and whether the function returned `Ok`。 -/
def sendChunked (fail : ℕ → Bool) (data : List ℕ) (fid : ℕ) :
    List (List ℕ) × Bool :=
  let tot := totalChunks data.length
  let cs := chunksOf CHUNK_SIZE data
  let fp := sendFirstPass fail fid tot 0 cs
  if !fp.2 then (fp.1, false)
  else if 2 < tot then
    let again :=
      (match cs.head? with
       | some c => if fail 0 then [] else [mkPacket fid 0 tot c]
       | none => []) ++
      (match cs.getLast? with
       | some c => if fail (cs.length - 1) then [] else [mkPacket fid (cs.length - 1) tot c]
       | none => [])
    (fp.1 ++ again, true)
  else (fp.1, true)

/-- The datagrams of one frame as produced by the first pass of
`send_chunked` with no transport failures: the chunk split of the payload,
each chunk framed with its header. -/
def sendPackets (data : List ℕ) (fid : ℕ) : List (List ℕ) :=
  (sendFirstPass (fun _ => false) fid (totalChunks data.length) 0
    (chunksOf CHUNK_SIZE data)).1

/-! ### Receiver header parse (udp_client.rs lines 60-68) -/

/-- The receiver's view of one datagram: drop it if shorter than 12 bytes,
else read the three big-endian `u32` header fields and take the rest as the
chunk payload. -/
def parseHeader (pkt : List ℕ) : Option (ℕ × ℕ × ℕ × List ℕ) :=
  if pkt.length < 12 then none
  else some (fromBe (pkt.take 4), fromBe ((pkt.drop 4).take 4),
    fromBe ((pkt.drop 8).take 4), pkt.drop 12)

/-! ### Exact rational model of `f32` arithmetic

The code compares and multiplies `f32` values (completion ratios, FPS
factors).  An `f32` in the normal range holds exactly a rational of the
form `m / 2^(23-e)`; every arithmetic result is rounded to nearest, ties
to even, at 24 significant bits.  `rnd32` is that rounding on positive
rationals (the values in this program never leave the normal range). -/

/-- Round a rational to the nearest integer, ties to the even integer
(IEEE-754 default rounding). -/
def rhe (q : ℚ) : ℤ :=
  if q - ⌊q⌋ < 1 / 2 then ⌊q⌋
  else if 1 / 2 < q - ⌊q⌋ then ⌊q⌋ + 1
  else if ⌊q⌋ % 2 = 0 then ⌊q⌋ else ⌊q⌋ + 1

/-- Fuel-based `⌊log₂⌋` on naturals (structural recursion, kernel
evaluable). -/
def nlog2Aux : ℕ → ℕ → ℕ
  | 0, _ => 0
  | f + 1, n => if 2 ≤ n then nlog2Aux f (n / 2) + 1 else 0

def nlog2 (n : ℕ) : ℕ := nlog2Aux n n

/-- Fuel-based `⌈log₂⌉` on naturals. -/
def nclog2Aux : ℕ → ℕ → ℕ
  | 0, _ => 0
  | f + 1, n => if 2 ≤ n then nclog2Aux f ((n + 1) / 2) + 1 else 0

def nclog2 (n : ℕ) : ℕ := nclog2Aux n n

/-- `⌊log₂ x⌋` of a positive rational. -/
def qlog2 (x : ℚ) : ℤ :=
  if 1 ≤ x then (nlog2 ⌊x⌋₊ : ℤ)
  else -(nclog2 ⌈x⁻¹⌉₊ : ℤ)

/-- `f32` rounding of a rational: round to nearest at 24 significant bits,
ties to even; non-positive inputs map to zero (the program only rounds
non-negative values). -/
def rnd32 (x : ℚ) : ℚ :=
  if x ≤ 0 then 0
  else (rhe (x * 2 ^ (23 - qlog2 x)) : ℚ) * 2 ^ (qlog2 x - 23)

/-- The `f32` value of a `u32`/count (`as f32`, round to nearest even). -/
def natF32 (n : ℕ) : ℚ := rnd32 (n : ℚ)

/-- The `f32` literal `0.98` (`MIN_FRAME_COMPLETION`, udp_client.rs line 8,
and the literal on line 111). -/
def c098 : ℚ := rnd32 (98 / 100)

/-! ### Receiver: `UdpClient::start_receiving` (udp_client.rs lines 46-195)

The in-flight table `frame_buffer : HashMap<u32, (Vec<Vec<u8>>, Instant)>`
is modelled as an association list from frame id to (chunk slots, last
update time); a slot is "received" when non-empty, exactly as the code
tests `!c.is_empty()`. -/

/-- One in-flight entry: chunk slots and `last_update` timestamp (ms). -/
def Entry : Type := List (List ℕ) × ℕ

/-- The in-flight frame table. -/
def Table : Type := List (ℕ × Entry)

instance : DecidableEq Entry := by unfold Entry; infer_instance

instance : DecidableEq Table := by unfold Table; infer_instance

def tlookup (t : Table) (id : ℕ) : Option Entry :=
  match t with
  | [] => none
  | (k, e) :: rest => if k = id then some e else tlookup rest id

/-- Insert-or-replace (`HashMap::insert` / in-place mutation through the
entry API). -/
def tset (t : Table) (id : ℕ) (e : Entry) : Table :=
  match t with
  | [] => [(id, e)]
  | (k, e0) :: rest => if k = id then (k, e) :: rest else (k, e0) :: tset rest id e

/-- `HashMap::remove` (on a table with unique keys, dropping every pair
with the key). -/
def tremove (t : Table) (id : ℕ) : Table :=
  t.filter (fun ke => decide (ke.1 ≠ id))

/-- `FRAME_TIMEOUT_MS` (udp_client.rs line 7). -/
def FRAME_TIMEOUT_MS : ℕ := 500

/-- The staleness scan run before each chunk is placed (lines 73-81):
`buffer.retain(|_, (_, ts)| now.duration_since(ts).as_millis() < 500)`. -/
def evict (t : Table) (now : ℕ) : Table :=
  t.filter (fun ke => decide (now - ke.2.2 < FRAME_TIMEOUT_MS))

/-- Count of received (non-empty) chunk slots (line 104). -/
def countFilled (slots : List (List ℕ)) : ℕ :=
  (slots.filter (fun c => !c.isEmpty)).length

/-- `completion_ratio = received as f32 / total as f32` (line 106). -/
def ratioOf (slots : List (List ℕ)) : ℚ :=
  rnd32 (natF32 (countFilled slots) / natF32 slots.length)

/-- `is_complete = completion_ratio >= 1.0` (line 110). -/
def isComplete (slots : List (List ℕ)) : Bool :=
  decide (1 ≤ ratioOf slots)

/-- `should_process = is_complete || (ratio >= MIN_FRAME_COMPLETION && ratio > 0.98)`
(line 111). -/
def shouldProcess (slots : List (List ℕ)) : Bool :=
  isComplete slots || (decide (c098 ≤ ratioOf slots) && decide (c098 < ratioOf slots))

/-- The assembled payload: `chunks.concat()` for complete frames, the
concatenation of the non-empty slots in index order for salvaged ones
(lines 115-138). -/
def assemble (slots : List (List ℕ)) : List ℕ :=
  if isComplete slots then slots.flatten
  else (slots.filter (fun c => !c.isEmpty)).flatten

/-- Payload validation and emission (lines 140-163): at least 100 bytes,
JPEG start marker, and the end marker unless the ratio is below 1.0.
Returns `some (is_complete, payload)` when the frame is emitted. -/
def buildEmission (slots : List (List ℕ)) : Option (Bool × List ℕ) :=
  let f := assemble slots
  if 100 ≤ f.length ∧
      [255, 216].isPrefixOf f ∧
      ([255, 217].isSuffixOf f ∨ ratioOf slots < 1) then
    some (isComplete slots, f)
  else none

/-- The body of one receive-loop iteration after a successful header parse
(udp_client.rs lines 70-180): evict stale entries, create the entry if
absent (`or_insert_with`, line 88), refresh its timestamp (line 93), place
the chunk when the index is in range (lines 96-101), and process the frame
when complete enough.  Returns the new table and the emitted frame, if
any. -/
def recvPlace (t : Table) (now fid idx tot : ℕ) (data : List ℕ) :
    Table × Option (Bool × List ℕ) :=
  let t1 := evict t now
  let slots0 := ((tlookup t1 fid).getD (List.replicate tot [], now)).1
  if idx < slots0.length then
    let slots1 := slots0.set idx data
    if shouldProcess slots1 then
      (tremove t1 fid, buildEmission slots1)
    else
      (tset t1 fid (slots1, now), none)
  else
    (tset t1 fid (slots0, now), none)

/-- One iteration of the receive loop on a successfully received datagram
(udp_client.rs lines 58-181): datagrams under 12 bytes are dropped before
anything else runs (lines 60-63). -/
def recvStep (t : Table) (now : ℕ) (pkt : List ℕ) :
    Table × Option (Bool × List ℕ) :=
  match parseHeader pkt with
  | none => (t, none)
  | some (fid, idx, tot, data) => recvPlace t now fid idx tot data

/-! ### Frame pacer (`AdaptiveFramePacer`, frame_pacer.rs lines 86-169)

`should_capture`/`actual_fps` depend on wall-clock time and are not needed
by the claims; the state relevant to the rate-adjustment contract is
`target_fps`, the bounds and the consecutive-slow-frame counter. -/

/-- The `f32` constant `0.8` (frame_pacer.rs line 118). -/
def c08 : ℚ := rnd32 (8 / 10)

/-- The `f32` constant `0.9` (line 149). -/
def c09 : ℚ := rnd32 (9 / 10)

/-- The `f32` constant `1.1` (line 128). -/
def c11 : ℚ := rnd32 (11 / 10)

/-- `packet_loss_threshold = 0.1` (line 101). -/
def lossThreshold : ℚ := rnd32 (1 / 10)

/-- `(t as f32 * c) as u32`: convert the u32 to `f32` (rounding), multiply
by the `f32` constant `c` (rounding), then truncate back to u32 with Rust's
saturating float-to-int cast. -/
def fmul32 (t : ℕ) (c : ℚ) : ℕ := min (2 ^ 32 - 1) ⌊rnd32 (natF32 t * c)⌋₊

structure Pacer where
  fps : ℕ
  minFps : ℕ
  maxFps : ℕ
  slowCount : ℕ
  deriving DecidableEq, Repr

/-- `AdaptiveFramePacer::new(default_fps, min_fps, max_fps)` (lines 96-104). -/
def Pacer.new (d mn mx : ℕ) : Pacer := ⟨d, mn, mx, 0⟩

/-- `adjust_for_packet_loss` (lines 115-137).  The code only calls
`set_fps` when the clamped value differs, which yields the same state. -/
def adjustLoss (p : Pacer) (rate : ℚ) : Pacer :=
  if lossThreshold < rate then
    { p with fps := max (fmul32 p.fps c08) p.minFps }
  else if rate < lossThreshold / 2 then
    { p with fps := min (fmul32 p.fps c11) p.maxFps }
  else p

/-- `adjust_for_slow_frame` (lines 140-160).  `target_frame_time` is u64
division `1000 / target_fps` (the code would panic if `target_fps` were 0;
the pacer is always constructed with positive bounds). -/
def adjustSlow (p : Pacer) (ms : ℕ) : Pacer :=
  let tft := 1000 / p.fps
  if tft * 2 < ms then
    if 5 ≤ p.slowCount + 1 then
      { p with fps := max (fmul32 p.fps c09) p.minFps, slowCount := 0 }
    else { p with slowCount := p.slowCount + 1 }
  else { p with slowCount := 0 }

/-- One feedback report to the pacer: an observed loss rate (an `f32`
value, modelled by its exact rational) or an observed frame time in ms. -/
inductive PacerOp
  | loss (rate : ℚ)
  | slow (ms : ℕ)

def applyOp (p : Pacer) : PacerOp → Pacer
  | .loss r => adjustLoss p r
  | .slow ms => adjustSlow p ms

def applyOps (p : Pacer) (ops : List PacerOp) : Pacer := ops.foldl applyOp p

/-- The pacer invariant of the claim: `target_fps` within bounds, with the
construction bounds intact. -/
def pacerInv (mn mx : ℕ) (p : Pacer) : Prop :=
  mn ≤ p.fps ∧ p.fps ≤ mx ∧ p.minFps = mn ∧ p.maxFps = mx

/-- The slots of the counterexample frame before the arrival: 48 of 50
filled. -/
def cexSlots0 : List (List ℕ) := List.replicate 48 [1] ++ [[], []]

/-- After the arrival fills slot 48: 49 of 50 filled, ratio exactly 0.98. -/
def cexSlots1 : List (List ℕ) := List.replicate 48 [1] ++ [[1], []]

def cexTable : Table := [(7, (cexSlots0, 0))]

def cexPkt : List ℕ := mkPacket 7 48 50 [1]

/-! ### Sender streaming loop (udp_server.rs lines 41-136)

One loop iteration that reached `capture_fn()` is modelled by the outcome
of that call; the pacer and the statistics counters do not influence
`frame_id`, `consecutive_errors` or `is_running` and are omitted.  The
recompression step (`recompress_jpeg`, an external image-codec call) is
modelled by its outcome, supplied with the capture event. -/

inductive CapResult
  /-- `Err(e) if e == "WouldBlock"` (line 113). -/
  | wouldBlock
  /-- any other `Err` (line 117). -/
  | capFail
  /-- `Ok(data)`, together with the outcome of `recompress_jpeg` (used only
  when `data.len() > 500_000`) and the transport-failure oracle for
  `send_chunked`. -/
  | capOk (data : List ℕ) (recompressed : Option (List ℕ)) (fail : ℕ → Bool)

structure SrvState where
  running : Bool
  errors : ℕ
  frameId : ℕ
  deriving DecidableEq, Repr

/-- `MAX_CONSECUTIVE_ERRORS` (udp_server.rs line 44). -/
def MAX_CONSECUTIVE_ERRORS : ℕ := 10

/-- The payload actually given to `send_chunked` for a captured frame:
frames under 100 bytes are skipped (line 70), frames over 500000 bytes are
recompressed and skipped if recompression fails (lines 76-86). -/
def payloadOf (data : List ℕ) (recompressed : Option (List ℕ)) : Option (List ℕ) :=
  if data.length < 100 then none
  else if 500000 < data.length then recompressed
  else some data

/-- One iteration of the streaming loop (lines 54-133), given the capture
outcome.  When the loop has stopped (`is_running` false) nothing runs. -/
def srvStep (s : SrvState) (r : CapResult) : SrvState :=
  if !s.running then s
  else
    match r with
    | .wouldBlock => s
    | .capFail =>
      if MAX_CONSECUTIVE_ERRORS ≤ s.errors + 1 then
        { s with errors := s.errors + 1, running := false }
      else { s with errors := s.errors + 1 }
    | .capOk data recompressed fail =>
      match payloadOf data recompressed with
      | none => { s with errors := 0 }
      | some p =>
        if (sendChunked fail p s.frameId).2 then
          { s with errors := 0, frameId := (s.frameId + 1) % 2 ^ 32 }
        else { s with errors := 0 }

def runSrv (s : SrvState) (evs : List CapResult) : SrvState := evs.foldl srvStep s

/-! ### Start/stop commands (lib.rs lines 21-55)

`start_server` builds a fresh `UdpServer` — hence a fresh shared
`is_running` flag — spawns its streaming loop, and overwrites
`AppState.server` with the new handle; the previous handle (if any) is
dropped without being stopped.  `stop_server` stops the handle currently
in the slot (if any) and clears the slot.  The model gives every created
flag an index in a store: a spawned loop keeps running while its own flag
is true, and only the handle in the slot is reachable by `stop`.
`start_client`/`stop_client` have the identical structure (lines 40-55). -/

structure Shell where
  /-- One running-flag per `UdpServer` ever created, in creation order. -/
  flags : List Bool
  /-- `AppState.server`: the index of the flag held by the current handle. -/
  slot : Option ℕ
  deriving DecidableEq, Repr

/-- `start_server` (lib.rs lines 22-28): new flag set true (udp_server.rs
line 37), loop spawned on it, slot overwritten. -/
def startCmd (s : Shell) : Shell :=
  { flags := s.flags ++ [true], slot := some s.flags.length }

/-- `stop_server` (lib.rs lines 31-37): `UdpServer::stop` sets the current
handle's flag false (udp_server.rs line 214), then the slot is cleared;
with no handle, only the slot is (re)set to `None`. -/
def stopCmd (s : Shell) : Shell :=
  match s.slot with
  | some i => { flags := s.flags.set i false, slot := none }
  | none => { flags := s.flags, slot := none }

/-- Whether the loop spawned by the `i`-th `start` is still running. -/
def loopRunning (s : Shell) (i : ℕ) : Bool := s.flags.getD i false

def w7Table : Table := [(9, ([[], []], 0)), (4, ([[1]], 600))]

def wSlots0 : List (List ℕ) := List.replicate 98 [255, 216] ++ [[], []]

def wSlots1 : List (List ℕ) := List.replicate 98 [255, 216] ++ [[255, 216], []]

def wTable : Table := [(0, (wSlots0, 0))]

def wPkt : List ℕ := mkPacket 0 98 100 [255, 216]

def wd100 : List ℕ := [255, 216] ++ List.replicate 96 0 ++ [255, 217]

/-! ## Theorems -/

theorem toBe_length (n : ℕ) : (toBe n).length = 4 := rfl

theorem fromBe_toBe (n : ℕ) (h : n < 2 ^ 32) : fromBe (toBe n) = n := by
  simp only [toBe, fromBe]
  omega

theorem chunksOfAux_fuel (f c : ℕ) (l : List α) (h : l.length ≤ f) :
    chunksOfAux f c l = chunksOfAux l.length c l := by
  induction f using Nat.strong_induction_on generalizing l with
  | _ f ih =>
    match f, l with
    | 0, l =>
      have : l = [] := List.eq_nil_of_length_eq_zero (by omega)
      subst this
      rfl
    | f + 1, [] => rfl
    | f + 1, a :: l =>
      simp only [List.length_cons] at h
      rw [chunksOfAux, List.length_cons, chunksOfAux]
      congr 1
      rw [ih f (by omega) _ (by simp only [List.length_drop]; omega),
        ih l.length (by omega) _ (by simp only [List.length_drop]; omega)]

theorem chunksOf_cons (c : ℕ) (a : α) (l : List α) :
    chunksOf c (a :: l) = (a :: l.take (c - 1)) :: chunksOf c (l.drop (c - 1)) := by
  rw [chunksOf, List.length_cons, chunksOfAux, chunksOf]
  congr 1
  rw [chunksOfAux_fuel _ _ _ (by simp only [List.length_drop]; omega)]

/-- Joining the chunks gives back the original list. -/
theorem chunksOf_join (c : ℕ) (l : List α) :
    (chunksOf c l).flatten = l := by
  suffices h : ∀ n (l : List α), l.length = n → (chunksOf c l).flatten = l from
    h l.length l rfl
  intro n
  induction n using Nat.strong_induction_on with
  | _ n ih =>
    intro l hn
    match l with
    | [] => rfl
    | a :: l =>
      rw [chunksOf_cons, List.flatten_cons, List.cons_append]
      rw [ih (l.drop (c - 1)).length ?_ _ rfl, List.take_append_drop]
      subst hn
      simp only [List.length_drop, List.length_cons]
      omega

/-- The number of chunks is `ceil (len / c)`, written the way the code
computes `total_chunks` (udp_server.rs line 164). -/
theorem chunksOf_length (c : ℕ) (hc : c ≠ 0) (l : List α) :
    (chunksOf c l).length = (l.length + c - 1) / c := by
  suffices h : ∀ n (l : List α), l.length = n →
      (chunksOf c l).length = (l.length + c - 1) / c from h l.length l rfl
  intro n
  induction n using Nat.strong_induction_on with
  | _ n ih =>
    intro l hn
    match l with
    | [] =>
      simp only [chunksOf, chunksOfAux, List.length_nil, Nat.zero_add]
      rw [Nat.div_eq_of_lt (by omega)]
    | a :: l =>
      rw [chunksOf_cons]
      simp only [List.length_cons]
      rw [ih (l.drop (c - 1)).length ?_ _ rfl]
      · simp only [List.length_drop]
        rcases Nat.exists_eq_succ_of_ne_zero hc with ⟨m, rfl⟩
        simp only [Nat.succ_sub_one]
        rcases Nat.le_total l.length m with h | h
        · have h1 : l.length - m + (m + 1) - 1 = m := by omega
          rw [h1, Nat.div_eq_of_lt (by omega), Nat.div_eq_sub_div (by omega) (by omega),
            Nat.div_eq_of_lt (by omega)]
        · have h1 : l.length - m + (m + 1) - 1 = l.length := by omega
          have h2 : l.length + 1 + (m + 1) - 1 = l.length + (m + 1) := by omega
          rw [h1, h2, Nat.add_div_right _ (by omega)]
      · subst hn
        simp only [List.length_drop, List.length_cons]
        omega

theorem parseHeader_mkPacket (fid idx tot : ℕ) (chunk : List ℕ)
    (hf : fid < 2 ^ 32) (hi : idx < 2 ^ 32) (ht : tot < 2 ^ 32) :
    parseHeader (mkPacket fid idx tot chunk) =
      some (fid, idx, tot, chunk) := by
  simp only [mkPacket, toBe, List.cons_append, List.nil_append]
  rw [parseHeader]
  simp only [List.length_cons]
  rw [if_neg (by omega)]
  simp only [List.take_succ_cons, List.take_zero, List.drop_succ_cons, List.drop_zero,
    fromBe, Option.some.injEq, Prod.mk.injEq]
  refine ⟨by omega, by omega, by omega, trivial⟩

theorem rhe_dist (q : ℚ) : |(rhe q : ℚ) - q| ≤ 1 / 2 := by
  have h0 := Int.floor_le q
  have h1 := Int.lt_floor_add_one q
  rw [rhe]
  split_ifs with ha hb hc
  all_goals rw [abs_le]; constructor <;> push_cast <;> linarith

theorem rhe_nonneg (q : ℚ) (h : 0 ≤ q) : 0 ≤ rhe q := by
  have h0 : (0 : ℤ) ≤ ⌊q⌋ := Int.floor_nonneg.mpr h
  rw [rhe]; split_ifs <;> omega

theorem nlog2Aux_spec (f : ℕ) : ∀ n, 1 ≤ n → n ≤ f →
    2 ^ nlog2Aux f n ≤ n ∧ n < 2 ^ (nlog2Aux f n + 1) := by
  induction f with
  | zero => intro n h1 h2; omega
  | succ f ih =>
    intro n h1 h2
    rw [nlog2Aux]
    by_cases h : 2 ≤ n
    · rw [if_pos h]
      have hrec := ih (n / 2) (by omega) (by omega)
      have hp1 : 2 ^ (nlog2Aux f (n / 2) + 1) = 2 ^ nlog2Aux f (n / 2) * 2 := pow_succ _ _
      have hp2 : 2 ^ (nlog2Aux f (n / 2) + 1 + 1) = 2 ^ (nlog2Aux f (n / 2) + 1) * 2 :=
        pow_succ _ _
      omega
    · rw [if_neg h]
      omega

theorem nlog2_spec (n : ℕ) (h : 1 ≤ n) :
    2 ^ nlog2 n ≤ n ∧ n < 2 ^ (nlog2 n + 1) :=
  nlog2Aux_spec n n h (le_refl n)

theorem nclog2Aux_spec (f : ℕ) : ∀ n, 1 ≤ n → n ≤ f →
    n ≤ 2 ^ nclog2Aux f n ∧ (2 ≤ n → 2 ^ (nclog2Aux f n - 1) < n ∧ 1 ≤ nclog2Aux f n) := by
  induction f with
  | zero => intro n h1 h2; omega
  | succ f ih =>
    intro n h1 h2
    rw [nclog2Aux]
    by_cases h : 2 ≤ n
    · rw [if_pos h]
      have hrec := ih ((n + 1) / 2) (by omega) (by omega)
      refine ⟨?_, fun _ => ⟨?_, by omega⟩⟩
      · rw [pow_succ]
        omega
      · simp only [Nat.add_sub_cancel]
        by_cases hm : 2 ≤ (n + 1) / 2
        · have h3 := (hrec.2 hm).1
          have h4 := (hrec.2 hm).2
          have h5 : nclog2Aux f ((n + 1) / 2) - 1 + 1 = nclog2Aux f ((n + 1) / 2) := by omega
          have hp : 2 ^ (nclog2Aux f ((n + 1) / 2) - 1 + 1)
              = 2 ^ (nclog2Aux f ((n + 1) / 2) - 1) * 2 := pow_succ _ _
          rw [h5] at hp
          omega
        · have hn2 : n = 2 := by omega
          have hm1 : (n + 1) / 2 = 1 := by omega
          rw [hm1] at hrec ⊢
          have h0 : nclog2Aux f 1 = 0 := by
            cases f with
            | zero => rfl
            | succ f => rw [nclog2Aux, if_neg (by omega)]
          rw [h0]
          omega
    · rw [if_neg h]
      omega

theorem nclog2_spec (n : ℕ) (h : 1 ≤ n) :
    n ≤ 2 ^ nclog2 n ∧ (2 ≤ n → 2 ^ (nclog2 n - 1) < n ∧ 1 ≤ nclog2 n) :=
  nclog2Aux_spec n n h (le_refl n)

theorem qlog2_le (x : ℚ) (hx : 0 < x) : (2 : ℚ) ^ qlog2 x ≤ x := by
  rw [qlog2]
  split_ifs with h1
  · have hn : 1 ≤ ⌊x⌋₊ := Nat.le_floor (by exact_mod_cast h1)
    have hp : (2 : ℕ) ^ nlog2 ⌊x⌋₊ ≤ ⌊x⌋₊ := (nlog2_spec _ hn).1
    have hf : ((⌊x⌋₊ : ℚ)) ≤ x := Nat.floor_le hx.le
    rw [zpow_natCast]
    calc (2 : ℚ) ^ nlog2 ⌊x⌋₊ = ((2 ^ nlog2 ⌊x⌋₊ : ℕ) : ℚ) := by push_cast; ring
    _ ≤ (⌊x⌋₊ : ℚ) := by exact_mod_cast hp
    _ ≤ x := hf
  · have hx1 : x < 1 := lt_of_not_le h1
    have hinv : 1 < x⁻¹ := (one_lt_inv₀ hx).mpr hx1
    have hm : (x⁻¹ : ℚ) ≤ (⌈x⁻¹⌉₊ : ℚ) := Nat.le_ceil _
    have hc1 : 1 ≤ ⌈x⁻¹⌉₊ := by
      have : (1 : ℕ) < ⌈x⁻¹⌉₊ := Nat.lt_ceil.mpr (by exact_mod_cast hinv)
      omega
    have hpow : (⌈x⁻¹⌉₊ : ℕ) ≤ 2 ^ nclog2 ⌈x⁻¹⌉₊ := (nclog2_spec _ hc1).1
    have hle : x⁻¹ ≤ ((2 : ℚ)) ^ (nclog2 ⌈x⁻¹⌉₊) := by
      calc x⁻¹ ≤ (⌈x⁻¹⌉₊ : ℚ) := hm
      _ ≤ ((2 ^ nclog2 ⌈x⁻¹⌉₊ : ℕ) : ℚ) := by exact_mod_cast hpow
      _ = (2 : ℚ) ^ nclog2 ⌈x⁻¹⌉₊ := by push_cast; ring
    rw [zpow_neg, zpow_natCast]
    exact inv_le_of_inv_le₀ hx hle

theorem qlog2_lt (x : ℚ) (hx : 0 < x) : x < (2 : ℚ) ^ (qlog2 x + 1) := by
  rw [qlog2]
  split_ifs with h1
  · have hn0 : 1 ≤ ⌊x⌋₊ := Nat.le_floor (by exact_mod_cast h1)
    have hn : ⌊x⌋₊ < 2 ^ (nlog2 ⌊x⌋₊ + 1) := (nlog2_spec _ hn0).2
    have hf : x < (⌊x⌋₊ : ℚ) + 1 := Nat.lt_floor_add_one x
    have hcast : ((nlog2 ⌊x⌋₊ : ℤ) + 1) = ((nlog2 ⌊x⌋₊ + 1 : ℕ) : ℤ) := by push_cast; ring
    rw [hcast, zpow_natCast]
    calc x < (⌊x⌋₊ : ℚ) + 1 := hf
    _ ≤ ((2 ^ (nlog2 ⌊x⌋₊ + 1) : ℕ) : ℚ) := by exact_mod_cast hn
    _ = (2 : ℚ) ^ (nlog2 ⌊x⌋₊ + 1) := by push_cast; ring
  · have hx1 : x < 1 := lt_of_not_le h1
    have hinv : 1 < x⁻¹ := (one_lt_inv₀ hx).mpr hx1
    have hm2 : 2 ≤ ⌈x⁻¹⌉₊ := by
      have : (1 : ℕ) < ⌈x⁻¹⌉₊ := Nat.lt_ceil.mpr (by exact_mod_cast hinv)
      omega
    have hspec := (nclog2_spec ⌈x⁻¹⌉₊ (by omega)).2 hm2
    have he : 1 ≤ nclog2 ⌈x⁻¹⌉₊ := hspec.2
    have hplt : 2 ^ (nclog2 ⌈x⁻¹⌉₊ - 1) < ⌈x⁻¹⌉₊ := hspec.1
    have hceil : (⌈x⁻¹⌉₊ : ℚ) < x⁻¹ + 1 := Nat.ceil_lt_add_one (by positivity)
    have hq : (2 : ℚ) ^ ((nclog2 ⌈x⁻¹⌉₊ - 1 : ℕ)) < x⁻¹ := by
      have h1' : ((2 ^ (nclog2 ⌈x⁻¹⌉₊ - 1) : ℕ) : ℚ) + 1 ≤ (⌈x⁻¹⌉₊ : ℚ) := by
        exact_mod_cast hplt
      push_cast at h1' ⊢
      linarith
    have hzsub : (-(nclog2 ⌈x⁻¹⌉₊ : ℤ) + 1) = -((nclog2 ⌈x⁻¹⌉₊ - 1 : ℕ) : ℤ) := by
      omega
    rw [hzsub, zpow_neg, zpow_natCast]
    have hpos : (0 : ℚ) < (2 : ℚ) ^ ((nclog2 ⌈x⁻¹⌉₊ - 1 : ℕ)) := by positivity
    calc x = (x⁻¹)⁻¹ := (inv_inv x).symm
    _ < ((2 : ℚ) ^ ((nclog2 ⌈x⁻¹⌉₊ - 1 : ℕ)))⁻¹ := by
        apply inv_strictAnti₀ hpos hq

theorem rnd32_nonneg (x : ℚ) : 0 ≤ rnd32 x := by
  rw [rnd32]
  split_ifs with h
  · exact le_refl 0
  · have hx : 0 < x := lt_of_not_le h
    have h1 : (0 : ℚ) ≤ (rhe (x * 2 ^ (23 - qlog2 x)) : ℚ) := by
      exact_mod_cast rhe_nonneg _ (by positivity)
    positivity

/-- Relative error of `f32` rounding: at most `2⁻²⁴` of the value. -/
theorem rnd32_dist (x : ℚ) (hx : 0 < x) : |rnd32 x - x| ≤ x / 2 ^ 24 := by
  rw [rnd32, if_neg (not_le.mpr hx)]
  have he := qlog2_le x hx
  set e := qlog2 x with hedef
  have hpow : (0 : ℚ) < (2 : ℚ) ^ (e - 23) := by positivity
  have key : (rhe (x * 2 ^ (23 - e)) : ℚ) * 2 ^ (e - 23) - x
      = ((rhe (x * 2 ^ (23 - e)) : ℚ) - x * 2 ^ (23 - e)) * 2 ^ (e - 23) := by
    have hmul : x * 2 ^ (23 - e) * 2 ^ (e - 23) = x := by
      rw [mul_assoc, ← zpow_add₀ (two_ne_zero)]
      norm_num
    linarith [hmul]
  rw [key, abs_mul, abs_of_pos hpow]
  have hd := rhe_dist (x * 2 ^ (23 - e))
  calc |(rhe (x * 2 ^ (23 - e)) : ℚ) - x * 2 ^ (23 - e)| * 2 ^ (e - 23)
      ≤ (1 / 2) * 2 ^ (e - 23) := by
        apply mul_le_mul_of_nonneg_right hd hpow.le
  _ = (2 : ℚ) ^ (e - 24) := by
      rw [show (e - 24) = (-1) + (e - 23) by ring, zpow_add₀ (two_ne_zero)]
      norm_num
  _ = (2 : ℚ) ^ e * 2 ^ (-(24 : ℤ)) := by
      rw [← zpow_add₀ (two_ne_zero)]
      ring_nf
  _ ≤ x * 2 ^ (-(24 : ℤ)) := by
      apply mul_le_mul_of_nonneg_right he (by positivity)
  _ = x / 2 ^ 24 := by
      rw [zpow_neg]
      rw [div_eq_mul_inv]
      norm_num

/-! ### Evaluating `rnd32` on concrete values

The kernel cannot normalise `ℚ` arithmetic, so concrete `f32` values are
established through `norm_num` with the following lemmas. -/

theorem rhe_intCast (m : ℤ) : rhe (m : ℚ) = m := by
  rw [rhe, Int.floor_intCast, if_pos (by norm_num)]

theorem rhe_eq_floor (q : ℚ) (m : ℤ) (h1 : ⌊q⌋ = m) (h2 : q - m < 1 / 2) :
    rhe q = m := by
  rw [rhe, h1, if_pos h2]

theorem rhe_eq_ceil (q : ℚ) (m : ℤ) (h1 : ⌊q⌋ = m) (h2 : 1 / 2 < q - m) :
    rhe q = m + 1 := by
  rw [rhe, h1, if_neg (by linarith), if_pos h2]

theorem qlog2_eq (x : ℚ) (e : ℤ) (h1 : (2 : ℚ) ^ e ≤ x) (h2 : x < (2 : ℚ) ^ (e + 1)) :
    qlog2 x = e := by
  have hx : 0 < x := lt_of_lt_of_le (by positivity) h1
  by_contra hne
  rcases lt_or_gt_of_ne hne with hlt | hgt
  · have hq := qlog2_lt x hx
    have hle : (2 : ℚ) ^ (qlog2 x + 1) ≤ 2 ^ e :=
      zpow_le_zpow_right₀ (by norm_num) (by omega)
    linarith
  · have hq := qlog2_le x hx
    have hle : (2 : ℚ) ^ (e + 1) ≤ 2 ^ qlog2 x :=
      zpow_le_zpow_right₀ (by norm_num) (by omega)
    linarith

theorem rnd32_eq (x : ℚ) (e m : ℤ) (hx : 0 < x) (he : qlog2 x = e)
    (hm : rhe (x * 2 ^ (23 - e)) = m) : rnd32 x = (m : ℚ) * 2 ^ (e - 23) := by
  rw [rnd32, if_neg (not_le.mpr hx), he, hm]

/-- A value already on the 24-bit grid is rounded to itself. -/
theorem rnd32_exact (x : ℚ) (e m : ℤ) (hx : 0 < x) (he : qlog2 x = e)
    (hm : x * 2 ^ (23 - e) = (m : ℚ)) : rnd32 x = x := by
  rw [rnd32_eq x e m hx he (by rw [hm, rhe_intCast]), ← hm, mul_assoc,
    ← zpow_add₀ (two_ne_zero)]
  norm_num

/-- Naturals up to `2^23` convert to `f32` exactly. -/
theorem natF32_exact (n : ℕ) (h1 : 1 ≤ n) (h2 : n ≤ 2 ^ 23) : natF32 n = n := by
  have hs := nlog2_spec n h1
  have he23 : nlog2 n ≤ 23 := by
    by_contra hgt
    push_neg at hgt
    have : 2 ^ 24 ≤ 2 ^ nlog2 n := Nat.pow_le_pow_right (by omega) (by omega)
    omega
  have hlow : (2 : ℚ) ^ ((nlog2 n : ℤ)) ≤ (n : ℚ) := by
    rw [zpow_natCast]
    exact_mod_cast hs.1
  have hhigh : (n : ℚ) < (2 : ℚ) ^ ((nlog2 n : ℤ) + 1) := by
    have hcast : ((nlog2 n : ℤ) + 1) = ((nlog2 n + 1 : ℕ) : ℤ) := by push_cast; ring
    rw [hcast, zpow_natCast]
    exact_mod_cast hs.2
  have he : qlog2 (n : ℚ) = (nlog2 n : ℤ) := qlog2_eq _ _ hlow hhigh
  have hzc : ((23 : ℤ) - (nlog2 n : ℤ)) = ((23 - nlog2 n : ℕ) : ℤ) := by omega
  have hm : (n : ℚ) * 2 ^ ((23 : ℤ) - (nlog2 n : ℤ))
      = (((n * 2 ^ (23 - nlog2 n) : ℕ) : ℤ) : ℚ) := by
    rw [hzc, zpow_natCast]
    push_cast
    ring
  exact rnd32_exact _ _ _ (by exact_mod_cast h1) he hm

/-! ### Table lemmas -/

theorem tlookup_tset_self (t : Table) (id : ℕ) (e : Entry) :
    tlookup (tset t id e) id = some e := by
  induction t with
  | nil => simp [tset, tlookup]
  | cons ke rest ih =>
    obtain ⟨k1, e1⟩ := ke
    rw [tset]
    by_cases h : k1 = id
    · rw [if_pos h, tlookup, if_pos h]
    · rw [if_neg h, tlookup, if_neg h]
      exact ih

theorem tlookup_tset_ne (t : Table) (id k : ℕ) (e : Entry) (h : k ≠ id) :
    tlookup (tset t id e) k = tlookup t k := by
  induction t with
  | nil =>
    rw [tset, tlookup, tlookup, if_neg (by omega), tlookup]
  | cons ke rest ih =>
    obtain ⟨k1, e1⟩ := ke
    rw [tset]
    by_cases h1 : k1 = id
    · rw [if_pos h1, tlookup, tlookup, if_neg (by omega), if_neg (by omega)]
    · rw [if_neg h1, tlookup, tlookup]
      by_cases h2 : k1 = k
      · rw [if_pos h2, if_pos h2]
      · rw [if_neg h2, if_neg h2]
        exact ih

theorem tlookup_tremove_self (t : Table) (id : ℕ) :
    tlookup (tremove t id) id = none := by
  induction t with
  | nil => rfl
  | cons ke rest ih =>
    obtain ⟨k1, e1⟩ := ke
    rw [tremove, List.filter_cons]
    by_cases h : k1 = id
    · rw [if_neg (by simp [h])]
      exact ih
    · rw [if_pos (by simp [h]), tlookup, if_neg h]
      exact ih

theorem tlookup_tremove_ne (t : Table) (id k : ℕ) (h : k ≠ id) :
    tlookup (tremove t id) k = tlookup t k := by
  induction t with
  | nil => rfl
  | cons ke rest ih =>
    obtain ⟨k1, e1⟩ := ke
    rw [tremove, List.filter_cons, tlookup]
    by_cases h1 : k1 = id
    · rw [if_neg (by simp [h1]), if_neg (by omega)]
      exact ih
    · rw [if_pos (by simp [h1]), tlookup]
      by_cases h2 : k1 = k
      · rw [if_pos h2, if_pos h2]
      · rw [if_neg h2, if_neg h2]
        exact ih

/-- A lookup that succeeds in a filtered table found a pair satisfying the
filter. -/
theorem tlookup_filter_prop (p : ℕ × Entry → Bool) (t : Table) (id : ℕ) (e : Entry)
    (h : tlookup (t.filter p) id = some e) : p (id, e) = true := by
  induction t with
  | nil => simp [tlookup] at h
  | cons ke rest ih =>
    obtain ⟨k1, e1⟩ := ke
    rw [List.filter_cons] at h
    by_cases h1 : p (k1, e1) = true
    · rw [if_pos h1, tlookup] at h
      by_cases h2 : k1 = id
      · rw [if_pos h2] at h
        cases h
        cases h2
        exact h1
      · rw [if_neg h2] at h
        exact ih h
    · rw [if_neg h1] at h
      exact ih h

theorem tlookup_eq_none_of_not_mem (t : Table) (id : ℕ)
    (h : id ∉ t.map Prod.fst) : tlookup t id = none := by
  induction t with
  | nil => rfl
  | cons ke rest ih =>
    simp only [List.map_cons, List.mem_cons] at h
    push_neg at h
    rw [tlookup, if_neg (by omega)]
    exact ih h.2

/-- Surviving an eviction means the entry is inside the timeout window. -/
theorem tlookup_evict_fresh (t : Table) (now id : ℕ) (e : Entry)
    (h : tlookup (evict t now) id = some e) : now - e.2 < FRAME_TIMEOUT_MS := by
  have h1 := tlookup_filter_prop _ t id e h
  simpa using h1

/-- Filtering does not add keys. -/
theorem filter_keys_subset (p : ℕ × Entry → Bool) (t : Table) :
    (t.filter p).map Prod.fst ⊆ t.map Prod.fst := by
  intro x hx
  rcases List.mem_map.mp hx with ⟨y, hy1, hy2⟩
  exact List.mem_map.mpr ⟨y, List.mem_of_mem_filter hy1, hy2⟩

/-- On a table with unique keys, a stale entry does not survive eviction. -/
theorem tlookup_evict_stale (t : Table) (now id : ℕ) (e : Entry)
    (hnd : (t.map Prod.fst).Nodup)
    (h : tlookup t id = some e) (hs : ¬ now - e.2 < FRAME_TIMEOUT_MS) :
    tlookup (evict t now) id = none := by
  induction t with
  | nil => rfl
  | cons ke rest ih =>
    obtain ⟨k1, e1⟩ := ke
    simp only [List.map_cons, List.nodup_cons] at hnd
    rw [tlookup] at h
    rw [evict, List.filter_cons]
    by_cases h1 : k1 = id
    · rw [if_pos h1] at h
      cases h
      rw [if_neg (by simpa using hs)]
      apply tlookup_eq_none_of_not_mem
      intro hmem
      apply hnd.1
      rw [← h1] at hmem
      exact filter_keys_subset _ rest hmem
    · rw [if_neg h1] at h
      by_cases h2 : (decide (now - e1.2 < FRAME_TIMEOUT_MS)) = true
      · rw [if_pos h2, tlookup, if_neg h1]
        exact ih hnd.2 h
      · rw [if_neg h2]
        exact ih hnd.2 h

/-- Entries looked up after a `tset` are the new entry or an old one. -/
theorem tlookup_tset_cases (t : Table) (id k : ℕ) (e e0 : Entry)
    (h : tlookup (tset t id e0) k = some e) : e = e0 ∨ tlookup t k = some e := by
  by_cases h1 : k = id
  · subst h1
    rw [tlookup_tset_self] at h
    cases h
    exact Or.inl rfl
  · rw [tlookup_tset_ne _ _ _ _ h1] at h
    exact Or.inr h

theorem tlookup_tremove_cases (t : Table) (id k : ℕ) (e : Entry)
    (h : tlookup (tremove t id) k = some e) : tlookup t k = some e := by
  by_cases h1 : k = id
  · subst h1
    rw [tlookup_tremove_self] at h
    cases h
  · rwa [tlookup_tremove_ne _ _ _ h1] at h

/-! ### Characterisations of `send_chunked` -/

theorem withIdx_length (l : List α) : ∀ i, (withIdx i l).length = l.length := by
  induction l with
  | nil => intro i; rfl
  | cons a l ih => intro i; simp [withIdx, ih]

theorem withIdx_map_snd (l : List α) : ∀ i, (withIdx i l).map Prod.snd = l := by
  induction l with
  | nil => intro i; rfl
  | cons a l ih => intro i; simp [withIdx, ih]

theorem mkPacket_drop12 (fid idx tot : ℕ) (chunk : List ℕ) :
    (mkPacket fid idx tot chunk).drop 12 = chunk := by
  simp only [mkPacket, toBe, List.cons_append, List.nil_append, List.drop_succ_cons,
    List.drop_zero]

/-- With no transport failure the first pass emits every chunk, framed, in
index order. -/
theorem sendFirstPass_nofail (fid tot : ℕ) (cs : List (List ℕ)) : ∀ i,
    sendFirstPass (fun _ => false) fid tot i cs
      = ((withIdx i cs).map (fun ic => mkPacket fid ic.1 tot ic.2), true) := by
  induction cs with
  | nil => intro i; rfl
  | cons c cs ih => intro i; simp [sendFirstPass, withIdx, ih]

/-- A `send_to` failure at chunk `j` aborts the first pass: exactly the
chunks before `j` go out and the pass reports failure. -/
theorem sendFirstPass_abort (fail : ℕ → Bool) (fid tot : ℕ) (cs : List (List ℕ)) :
    ∀ i j, (∀ k, k < j → fail (i + k) = false) → fail (i + j) = true →
    j < cs.length →
    sendFirstPass fail fid tot i cs
      = (((withIdx i cs).take j).map (fun ic => mkPacket fid ic.1 tot ic.2), false) := by
  induction cs with
  | nil =>
    intro i j _ _ hlt
    simp at hlt
  | cons c cs ih =>
    intro i j hb hj hlt
    match j with
    | 0 =>
      rw [sendFirstPass, if_pos (by simpa using hj)]
      simp
    | j + 1 =>
      have h0 : fail i = false := by
        have := hb 0 (by omega)
        simpa using this
      rw [sendFirstPass, if_neg (by simp [h0])]
      have hb' : ∀ k, k < j → fail (i + 1 + k) = false := by
        intro k hk
        have h1 : i + 1 + k = i + (k + 1) := by omega
        rw [h1]
        exact hb (k + 1) (by omega)
      have hj' : fail (i + 1 + j) = true := by
        have h1 : i + 1 + j = i + (j + 1) := by omega
        rw [h1]
        exact hj
      rw [ih (i + 1) j hb' hj' (by simpa using hlt)]
      simp [withIdx]

/-- The `sendChunked` result on an aborted first pass. -/
theorem sendChunked_abort (fail : ℕ → Bool) (data : List ℕ) (fid i : ℕ)
    (hbefore : ∀ k, k < i → fail k = false) (hi : fail i = true)
    (hlt : i < (chunksOf CHUNK_SIZE data).length) :
    sendChunked fail data fid
      = (((withIdx 0 (chunksOf CHUNK_SIZE data)).take i).map
          (fun ic => mkPacket fid ic.1 (totalChunks data.length) ic.2), false) := by
  have h := sendFirstPass_abort fail fid (totalChunks data.length)
    (chunksOf CHUNK_SIZE data) 0 i (by simpa using hbefore) (by simpa using hi) hlt
  rw [sendChunked]
  rw [h]
  simp

/-- `total_chunks` never exceeds the payload length. -/
theorem totalChunks_le_self (L : ℕ) : totalChunks L ≤ L := by
  rw [totalChunks, CHUNK_SIZE]
  omega

theorem chunksOf_length_eq_totalChunks (data : List ℕ) :
    (chunksOf CHUNK_SIZE data).length = totalChunks data.length := by
  rw [chunksOf_length _ (by decide)]
  rfl

/-! ### C1: chunking round-trip -/

/-- C1.  Chunking round-trip: the sender splits a payload of length `L`
into `ceil (L / 8192)` chunks (`CHUNK_SIZE = 8192`, final chunk possibly
shorter), frames each with the 12-byte big-endian
`(frame_id, chunk_index, total_chunks)` header; the receiver's header
parse recovers exactly those fields and payloads, and concatenating the
chunk payloads in index order reproduces the original payload, for every
`L` (including `0`, `1`, `C-1`, `C`, `C+1` and `10*C`). -/
theorem chunking_roundtrip (data : List ℕ) (fid : ℕ)
    (hf : fid < 2 ^ 32) (hL : data.length < 2 ^ 32) :
    (sendPackets data fid).length = (data.length + CHUNK_SIZE - 1) / CHUNK_SIZE
    ∧ (sendPackets data fid).map parseHeader
        = (withIdx 0 (chunksOf CHUNK_SIZE data)).map
            (fun ic => some (fid, ic.1, totalChunks data.length, ic.2))
    ∧ ((sendPackets data fid).map (fun p => p.drop 12)).flatten = data := by
  have hsp : sendPackets data fid
      = (withIdx 0 (chunksOf CHUNK_SIZE data)).map
          (fun ic => mkPacket fid ic.1 (totalChunks data.length) ic.2) := by
    rw [sendPackets, sendFirstPass_nofail]
  have htot : totalChunks data.length < 2 ^ 32 := by
    have h := totalChunks_le_self data.length
    omega
  have hidxbound : ∀ cs : List (List ℕ), ∀ i : ℕ, i + cs.length ≤ 2 ^ 32 →
      ((withIdx i cs).map (fun ic => mkPacket fid ic.1 (totalChunks data.length) ic.2)).map
          parseHeader
        = (withIdx i cs).map (fun ic => some (fid, ic.1, totalChunks data.length, ic.2)) := by
    intro cs
    induction cs with
    | nil => intro i _; rfl
    | cons c cs ih =>
      intro i hbound
      simp only [withIdx, List.map_cons]
      rw [parseHeader_mkPacket fid i _ c hf (by simp at hbound; omega) htot]
      rw [ih (i + 1) (by simp at hbound ⊢; omega)]
  refine ⟨?_, ?_, ?_⟩
  · rw [hsp, List.length_map, withIdx_length, chunksOf_length _ (by decide)]
  · rw [hsp]
    apply hidxbound
    rw [Nat.zero_add, chunksOf_length_eq_totalChunks]
    omega
  · rw [hsp, List.map_map]
    have hcomp : ((fun p => List.drop 12 p) ∘
        fun ic : ℕ × List ℕ => mkPacket fid ic.1 (totalChunks data.length) ic.2)
        = Prod.snd := by
      funext ic
      simp only [Function.comp_apply]
      exact mkPacket_drop12 fid ic.1 (totalChunks data.length) ic.2
    rw [hcomp, withIdx_map_snd, chunksOf_join]

/-! ### Receive-step characterisations -/

theorem recvStep_eq (t : Table) (now : ℕ) (pkt : List ℕ) (fid idx tot : ℕ)
    (data : List ℕ) (hp : parseHeader pkt = some (fid, idx, tot, data)) :
    recvStep t now pkt = recvPlace t now fid idx tot data := by
  rw [recvStep.eq_def, hp]

/-- An out-of-range chunk index: the table is still mutated (eviction ran,
the entry was `or_insert`ed and its timestamp refreshed), but no slot is
written and nothing is emitted. -/
theorem recvPlace_invalid (t : Table) (now fid idx tot : ℕ) (data : List ℕ)
    (slots0 : List (List ℕ)) (ts0 : ℕ)
    (he : (tlookup (evict t now) fid).getD (List.replicate tot [], now) = (slots0, ts0))
    (hidx : ¬ idx < slots0.length) :
    recvPlace t now fid idx tot data = (tset (evict t now) fid (slots0, now), none) := by
  rw [recvPlace]
  simp only [he]
  rw [if_neg hidx]

/-- A placed chunk that does not reach the completion threshold: the slot
is written and the entry kept with a fresh timestamp. -/
theorem recvPlace_noProcess (t : Table) (now fid idx tot : ℕ) (data : List ℕ)
    (slots0 : List (List ℕ)) (ts0 : ℕ)
    (he : (tlookup (evict t now) fid).getD (List.replicate tot [], now) = (slots0, ts0))
    (hidx : idx < slots0.length)
    (hsp : shouldProcess (slots0.set idx data) = false) :
    recvPlace t now fid idx tot data
      = (tset (evict t now) fid (slots0.set idx data, now), none) := by
  rw [recvPlace]
  simp only [he]
  rw [if_pos hidx, if_neg (by rw [hsp]; exact Bool.false_ne_true)]

/-- A placed chunk that reaches the completion threshold: the frame is
processed and its entry removed. -/
theorem recvPlace_process (t : Table) (now fid idx tot : ℕ) (data : List ℕ)
    (slots0 : List (List ℕ)) (ts0 : ℕ)
    (he : (tlookup (evict t now) fid).getD (List.replicate tot [], now) = (slots0, ts0))
    (hidx : idx < slots0.length)
    (hsp : shouldProcess (slots0.set idx data) = true) :
    recvPlace t now fid idx tot data
      = (tremove (evict t now) fid, buildEmission (slots0.set idx data)) := by
  rw [recvPlace]
  simp only [he]
  rw [if_pos hidx, if_pos hsp]

/-- The table produced by a receive step is an eviction-filtered table with
at most the arriving frame's entry touched. -/
theorem recvPlace_table_cases (t : Table) (now fid idx tot : ℕ) (data : List ℕ) :
    (recvPlace t now fid idx tot data).1 = tremove (evict t now) fid
    ∨ ∃ sl, (recvPlace t now fid idx tot data).1 = tset (evict t now) fid (sl, now) := by
  simp only [recvPlace]
  split_ifs
  · exact Or.inl rfl
  · exact Or.inr ⟨_, rfl⟩
  · exact Or.inr ⟨_, rfl⟩

/-! ### C4: invalid chunk index -/

/-- C4, counterexample to the claim as stated: on an empty table, a chunk
for frame 5 with `chunk_index = 9 ≥ total_chunks = 4` is discarded, but the
in-flight table *is* mutated: an entry for frame 5 is created (with empty
slots and `last_update = now`), contrary to "no entry is created". -/
theorem invalid_index_cex :
    (4 : ℕ) ≤ 9
    ∧ (recvStep [] 0 (mkPacket 5 9 4 [1])).2 = none
    ∧ tlookup (recvStep [] 0 (mkPacket 5 9 4 [1])).1 5 = some (List.replicate 4 [], 0) := by
  refine ⟨by omega, ?_, ?_⟩ <;> decide

/-- C4 (amended).  A chunk whose index is at or beyond the entry's slot
count writes no slot and emits nothing, but the receive step still mutates
the table: stale entries are evicted, an entry for the frame id is created
if absent (`or_insert_with`), and its `last_update` is refreshed to the
arrival time — the code updates the timestamp and creates the entry before
validating the index. -/
theorem invalid_index_effect (t : Table) (now : ℕ) (pkt : List ℕ)
    (fid idx tot : ℕ) (data : List ℕ) (slots0 : List (List ℕ)) (ts0 : ℕ)
    (hp : parseHeader pkt = some (fid, idx, tot, data))
    (he : (tlookup (evict t now) fid).getD (List.replicate tot [], now) = (slots0, ts0))
    (hidx : ¬ idx < slots0.length) :
    recvStep t now pkt = (tset (evict t now) fid (slots0, now), none) := by
  rw [recvStep_eq t now pkt fid idx tot data hp]
  exact recvPlace_invalid t now fid idx tot data slots0 ts0 he hidx

/-! ### C7: staleness eviction -/

/-- C7.  Staleness eviction: on each receive-loop arrival carrying a
parseable header, every in-flight entry whose `last_update` is older than
the 500 ms timeout is removed before the chunk is placed — afterwards every
entry in the table is within the timeout window, and a stale frame (under a
different id than the arrival) is gone from the table and hence can never
be emitted. -/
theorem staleness_eviction (t : Table) (now : ℕ) (pkt : List ℕ)
    (fid idx tot : ℕ) (data : List ℕ)
    (hp : parseHeader pkt = some (fid, idx, tot, data))
    (hnd : (t.map Prod.fst).Nodup) :
    (∀ id e, tlookup (recvStep t now pkt).1 id = some e → now - e.2 < FRAME_TIMEOUT_MS)
    ∧ (∀ id slots ts, tlookup t id = some (slots, ts) →
        FRAME_TIMEOUT_MS < now - ts → id ≠ fid →
        tlookup (recvStep t now pkt).1 id = none) := by
  rw [recvStep_eq t now pkt fid idx tot data hp]
  rcases recvPlace_table_cases t now fid idx tot data with hc | ⟨sl, hc⟩
  · constructor
    · intro id e hl
      rw [hc] at hl
      exact tlookup_evict_fresh t now id e (tlookup_tremove_cases _ _ _ _ hl)
    · intro id slots ts hl hstale hne
      rw [hc, tlookup_tremove_ne _ _ _ hne]
      exact tlookup_evict_stale t now id (slots, ts) hnd hl (by simp only []; omega)
  · constructor
    · intro id e hl
      rw [hc] at hl
      rcases tlookup_tset_cases _ _ _ _ _ hl with h1 | h1
      · rw [h1]
        rw [FRAME_TIMEOUT_MS]
        omega
      · exact tlookup_evict_fresh t now id e h1
    · intro id slots ts hl hstale hne
      rw [hc, tlookup_tset_ne _ _ _ _ hne]
      exact tlookup_evict_stale t now id (slots, ts) hnd hl (by simp only []; omega)

/-! ### C6: assembled-frame validation -/

/-- C6.  Assembled-frame validation: a frame that reaches the processing
stage (Complete or Salvaged) is emitted exactly when the assembled payload
has at least 100 bytes, starts with the JPEG start marker `FF D8`, and —
unless the completion ratio is below 1.0 (the salvaged case, exempt from
the end check) — ends with the JPEG end marker `FF D9`; whether it passes
or fails, the frame's entry is removed from the table, and a failing frame
is never emitted. -/
theorem validation_gate (t : Table) (now : ℕ) (pkt : List ℕ)
    (fid idx tot : ℕ) (data : List ℕ) (slots0 : List (List ℕ)) (ts0 : ℕ)
    (hp : parseHeader pkt = some (fid, idx, tot, data))
    (he : (tlookup (evict t now) fid).getD (List.replicate tot [], now) = (slots0, ts0))
    (hidx : idx < slots0.length)
    (hsp : shouldProcess (slots0.set idx data) = true) :
    (recvStep t now pkt).2
      = (if 100 ≤ (assemble (slots0.set idx data)).length
            ∧ [255, 216].isPrefixOf (assemble (slots0.set idx data))
            ∧ ([255, 217].isSuffixOf (assemble (slots0.set idx data))
                ∨ ratioOf (slots0.set idx data) < 1)
          then some (isComplete (slots0.set idx data), assemble (slots0.set idx data))
          else none)
    ∧ tlookup (recvStep t now pkt).1 fid = none := by
  rw [recvStep_eq t now pkt fid idx tot data hp,
    recvPlace_process t now fid idx tot data slots0 ts0 he hidx hsp]
  exact ⟨rfl, tlookup_tremove_self _ _⟩

/-- The exact value of the `f32` literal `0.98`. -/
theorem c098_val : c098 = 16441672 / 2 ^ 24 := by
  have he : qlog2 ((98 : ℚ) / 100) = -1 := by
    apply qlog2_eq <;> norm_num
  have hm : rhe ((98 : ℚ) / 100 * 2 ^ ((23 : ℤ) - (-1))) = 16441672 := by
    have h24 : ((23 : ℤ) - (-1)) = (24 : ℤ) := by norm_num
    have h2 : ((2 : ℚ)) ^ ((24 : ℤ)) = 16777216 := by norm_num
    rw [h24, h2, rhe_eq_ceil _ 16441671 (by rw [Int.floor_eq_iff]; norm_num) (by norm_num)]
    norm_num
  rw [c098, rnd32_eq _ (-1) 16441672 (by norm_num) he hm]
  norm_num

/-- The exact value of the `f32` literal `0.8`. -/
theorem c08_val : c08 = 13421773 / 2 ^ 24 := by
  have he : qlog2 ((8 : ℚ) / 10) = -1 := by
    apply qlog2_eq <;> norm_num
  have hm : rhe ((8 : ℚ) / 10 * 2 ^ ((23 : ℤ) - (-1))) = 13421773 := by
    have h24 : ((23 : ℤ) - (-1)) = (24 : ℤ) := by norm_num
    have h2 : ((2 : ℚ)) ^ ((24 : ℤ)) = 16777216 := by norm_num
    rw [h24, h2, rhe_eq_ceil _ 13421772 (by rw [Int.floor_eq_iff]; norm_num) (by norm_num)]
    norm_num
  rw [c08, rnd32_eq _ (-1) 13421773 (by norm_num) he hm]
  norm_num

/-- The exact value of the `f32` literal `0.9`. -/
theorem c09_val : c09 = 15099494 / 2 ^ 24 := by
  have he : qlog2 ((9 : ℚ) / 10) = -1 := by
    apply qlog2_eq <;> norm_num
  have hm : rhe ((9 : ℚ) / 10 * 2 ^ ((23 : ℤ) - (-1))) = 15099494 := by
    have h24 : ((23 : ℤ) - (-1)) = (24 : ℤ) := by norm_num
    have h2 : ((2 : ℚ)) ^ ((24 : ℤ)) = 16777216 := by norm_num
    rw [h24, h2, rhe_eq_floor _ 15099494 (by rw [Int.floor_eq_iff]; norm_num) (by norm_num)]
  rw [c09, rnd32_eq _ (-1) 15099494 (by norm_num) he hm]
  norm_num

/-- The exact value of the `f32` literal `1.1`. -/
theorem c11_val : c11 = 9227469 / 2 ^ 23 := by
  have he : qlog2 ((11 : ℚ) / 10) = 0 := by
    apply qlog2_eq <;> norm_num
  have hm : rhe ((11 : ℚ) / 10 * 2 ^ ((23 : ℤ) - 0)) = 9227469 := by
    have h23 : ((23 : ℤ) - 0) = (23 : ℤ) := by norm_num
    have h2 : ((2 : ℚ)) ^ ((23 : ℤ)) = 8388608 := by norm_num
    rw [h23, h2, rhe_eq_ceil _ 9227468 (by rw [Int.floor_eq_iff]; norm_num) (by norm_num)]
    norm_num
  rw [c11, rnd32_eq _ 0 9227469 (by norm_num) he hm]
  norm_num

/-- The exact value of the `f32` literal `0.1`. -/
theorem lossThreshold_val : lossThreshold = 13421773 / 2 ^ 27 := by
  have he : qlog2 ((1 : ℚ) / 10) = -4 := by
    apply qlog2_eq <;> norm_num
  have hm : rhe ((1 : ℚ) / 10 * 2 ^ ((23 : ℤ) - (-4))) = 13421773 := by
    have h27 : ((23 : ℤ) - (-4)) = (27 : ℤ) := by norm_num
    have h2 : ((2 : ℚ)) ^ ((27 : ℤ)) = 134217728 := by norm_num
    rw [h27, h2, rhe_eq_ceil _ 13421772 (by rw [Int.floor_eq_iff]; norm_num) (by norm_num)]
    norm_num
  rw [lossThreshold, rnd32_eq _ (-4) 13421773 (by norm_num) he hm]
  norm_num

/-! ### Bounds on the f32 FPS arithmetic -/

theorem rnd32_bounds (x : ℚ) (hx : 0 ≤ x) :
    x * (1 - 1 / 2 ^ 24) ≤ rnd32 x ∧ rnd32 x ≤ x * (1 + 1 / 2 ^ 24) := by
  rcases eq_or_lt_of_le hx with h | h
  · rw [← h]
    norm_num [rnd32]
  · have hd := rnd32_dist x h
    rw [abs_le] at hd
    constructor <;> nlinarith [hd.1, hd.2]

theorem fmul32_le_self (t : ℕ) (c : ℚ) (hc : 0 ≤ c)
    (hb : c * ((1 + 1 / 2 ^ 24) * (1 + 1 / 2 ^ 24)) ≤ 1) : fmul32 t c ≤ t := by
  have h1 := (rnd32_bounds (t : ℚ) (by positivity)).2
  have hnn : 0 ≤ natF32 t := rnd32_nonneg _
  have h2 := (rnd32_bounds (natF32 t * c) (by positivity)).2
  have h3 : rnd32 (natF32 t * c) ≤ (t : ℚ) := by
    have hstep : natF32 t * c ≤ (t : ℚ) * (1 + 1 / 2 ^ 24) * c :=
      mul_le_mul_of_nonneg_right h1 hc
    calc rnd32 (natF32 t * c) ≤ natF32 t * c * (1 + 1 / 2 ^ 24) := h2
    _ ≤ (t : ℚ) * (1 + 1 / 2 ^ 24) * c * (1 + 1 / 2 ^ 24) :=
        mul_le_mul_of_nonneg_right hstep (by positivity)
    _ = (t : ℚ) * (c * ((1 + 1 / 2 ^ 24) * (1 + 1 / 2 ^ 24))) := by ring
    _ ≤ (t : ℚ) * 1 := mul_le_mul_of_nonneg_left hb (by positivity)
    _ = (t : ℚ) := mul_one _
  have h4 : ⌊rnd32 (natF32 t * c)⌋₊ ≤ t := by
    have h5 := Nat.floor_le_floor h3
    rwa [Nat.floor_natCast] at h5
  exact le_trans (min_le_right _ _) h4

theorem le_fmul32_self (t : ℕ) (c : ℚ) (ht : t ≤ 2 ^ 32 - 1)
    (hb : 1 ≤ c * ((1 - 1 / 2 ^ 24) * (1 - 1 / 2 ^ 24))) : t ≤ fmul32 t c := by
  have hc : 0 ≤ c := by
    by_contra hneg
    push_neg at hneg
    nlinarith
  have h1 := (rnd32_bounds (t : ℚ) (by positivity)).1
  have hnn : 0 ≤ natF32 t := rnd32_nonneg _
  have h2 := (rnd32_bounds (natF32 t * c) (by positivity)).1
  have h3 : (t : ℚ) ≤ rnd32 (natF32 t * c) := by
    have hstep : (t : ℚ) * (1 - 1 / 2 ^ 24) * c ≤ natF32 t * c :=
      mul_le_mul_of_nonneg_right h1 hc
    calc (t : ℚ) = (t : ℚ) * 1 := (mul_one _).symm
    _ ≤ (t : ℚ) * (c * ((1 - 1 / 2 ^ 24) * (1 - 1 / 2 ^ 24))) :=
        mul_le_mul_of_nonneg_left hb (by positivity)
    _ = (t : ℚ) * (1 - 1 / 2 ^ 24) * c * (1 - 1 / 2 ^ 24) := by ring
    _ ≤ natF32 t * c * (1 - 1 / 2 ^ 24) :=
        mul_le_mul_of_nonneg_right hstep (by norm_num)
    _ ≤ rnd32 (natF32 t * c) := h2
  have h4 : t ≤ ⌊rnd32 (natF32 t * c)⌋₊ := Nat.le_floor h3
  exact le_min ht h4

theorem c08_step : 0 ≤ c08 ∧ c08 * ((1 + 1 / 2 ^ 24) * (1 + 1 / 2 ^ 24)) ≤ 1 := by
  rw [c08_val]
  constructor <;> norm_num

theorem c09_step : 0 ≤ c09 ∧ c09 * ((1 + 1 / 2 ^ 24) * (1 + 1 / 2 ^ 24)) ≤ 1 := by
  rw [c09_val]
  constructor <;> norm_num

theorem c11_step : 1 ≤ c11 * ((1 - 1 / 2 ^ 24) * (1 - 1 / 2 ^ 24)) := by
  rw [c11_val]
  norm_num

theorem applyOp_preserves (mn mx : ℕ) (hle : mn ≤ mx) (hmx : mx < 2 ^ 32)
    (p : Pacer) (op : PacerOp) (hp : pacerInv mn mx p) :
    pacerInv mn mx (applyOp p op) := by
  obtain ⟨h1, h2, h3, h4⟩ := hp
  have hdown : ∀ c : ℚ, 0 ≤ c → c * ((1 + 1 / 2 ^ 24) * (1 + 1 / 2 ^ 24)) ≤ 1 →
      pacerInv mn mx { p with fps := max (fmul32 p.fps c) p.minFps } := by
    intro c hc hb
    refine ⟨?_, ?_, h3, h4⟩
    · rw [← h3]
      exact le_max_right _ _
    · refine max_le (le_trans (fmul32_le_self p.fps c hc hb) h2) ?_
      rw [h3]
      exact hle
  have hup : pacerInv mn mx { p with fps := min (fmul32 p.fps c11) p.maxFps } := by
    refine ⟨?_, ?_, h3, h4⟩
    · refine le_min ?_ (by rw [h4]; exact hle)
      exact le_trans h1 (le_fmul32_self p.fps c11 (by omega) c11_step)
    · rw [← h4]
      exact min_le_right _ _
  cases op with
  | loss r =>
    rw [applyOp, adjustLoss]
    split_ifs
    · exact hdown c08 c08_step.1 c08_step.2
    · exact hup
    · exact ⟨h1, h2, h3, h4⟩
  | slow ms =>
    rw [applyOp, adjustSlow]
    split_ifs
    · exact hdown c09 c09_step.1 c09_step.2
    · exact ⟨h1, h2, h3, h4⟩
    · exact ⟨h1, h2, h3, h4⟩

theorem applyOps_preserves (mn mx : ℕ) (hle : mn ≤ mx) (hmx : mx < 2 ^ 32)
    (ops : List PacerOp) :
    ∀ p : Pacer, pacerInv mn mx p → pacerInv mn mx (applyOps p ops) := by
  induction ops with
  | nil => intro p hp; exact hp
  | cons op ops ih =>
    intro p hp
    exact ih _ (applyOp_preserves mn mx hle hmx p op hp)

/-! ### C2: salvage threshold -/

theorem c098_lt_one : c098 < 1 := by
  rw [c098_val]
  norm_num

/-- `49/50` rounds in `f32` to exactly the `0.98` threshold constant. -/
theorem ratio_49_50 : ratioOf cexSlots1 = c098 := by
  have hc : countFilled cexSlots1 = 49 := by decide
  have hl : cexSlots1.length = 50 := by decide
  rw [ratioOf, hc, hl, natF32_exact 49 (by omega) (by norm_num),
    natF32_exact 50 (by omega) (by norm_num),
    show ((49 : ℕ) : ℚ) = (49 : ℚ) by norm_num,
    show ((50 : ℕ) : ℚ) = (50 : ℚ) by norm_num]
  have he : qlog2 ((49 : ℚ) / 50) = -1 := by
    apply qlog2_eq <;> norm_num
  have hm : rhe ((49 : ℚ) / 50 * 2 ^ ((23 : ℤ) - (-1))) = 16441672 := by
    have h24 : ((23 : ℤ) - (-1)) = (24 : ℤ) := by norm_num
    have h2 : ((2 : ℚ)) ^ ((24 : ℤ)) = 16777216 := by norm_num
    rw [h24, h2, rhe_eq_ceil _ 16441671 (by rw [Int.floor_eq_iff]; norm_num) (by norm_num)]
    norm_num
  rw [rnd32_eq _ (-1) 16441672 (by norm_num) he hm, c098_val]
  norm_num

/-- C2, counterexample to the claim as stated: a chunk arrival bringing a
frame to 49 of 50 chunks — completion ratio exactly `0.98`, so at least
`0.98` and below `1.0` — is *not* salvaged: the condition on line 111 is
strict (`> 0.98`), nothing is emitted and the entry stays in the table. -/
theorem salvage_threshold_cex :
    ((98 : ℚ) / 100 ≤ (countFilled cexSlots1 : ℚ) / (cexSlots1.length : ℚ)
      ∧ (countFilled cexSlots1 : ℚ) / (cexSlots1.length : ℚ) < 1)
    ∧ (recvStep cexTable 0 cexPkt).2 = none
    ∧ tlookup (recvStep cexTable 0 cexPkt).1 7 = some (cexSlots1, 0) := by
  have hc : countFilled cexSlots1 = 49 := by decide
  have hl : cexSlots1.length = 50 := by decide
  have hsp : shouldProcess cexSlots1 = false := by
    rw [shouldProcess, isComplete, ratio_49_50]
    have hd1 : decide ((1 : ℚ) ≤ c098) = false :=
      decide_eq_false (by rw [c098_val]; norm_num)
    have hd2 : decide (c098 < c098) = false := decide_eq_false (lt_irrefl c098)
    rw [hd1, hd2, Bool.and_false, Bool.false_or]
  have hset : cexSlots0.set 48 [1] = cexSlots1 := by decide
  have hstep : recvStep cexTable 0 cexPkt
      = (tset (evict cexTable 0) 7 (cexSlots1, 0), none) := by
    rw [recvStep_eq cexTable 0 cexPkt 7 48 50 [1] (by decide)]
    have h := recvPlace_noProcess cexTable 0 7 48 50 [1] cexSlots0 0 (by decide)
      (by decide) (by rw [hset]; exact hsp)
    rw [hset] at h
    exact h
  refine ⟨⟨?_, ?_⟩, ?_, ?_⟩
  · rw [hc, hl]
    norm_num
  · rw [hc, hl]
    norm_num
  · rw [hstep]
  · rw [hstep]
    exact tlookup_tset_self _ _ _

/-- C2 (amended).  Salvage threshold: a chunk arrival that brings the
completion ratio (as computed in `f32`) *strictly above* the `f32`
threshold constant `0.98` while below `1.0` is emitted via the Salvaged
path — the populated slots concatenated in index order, skipping empty
ones — subject to payload validation; an arrival leaving the ratio at or
below the threshold (in particular at exactly `0.98`, e.g. 49 of 50) is
not processed at all: nothing is emitted and the entry is kept.  A frame
missing 1 chunk of 100 (ratio `0.99`) is salvaged; one missing 5 of 100
(ratio `0.95`) never is. -/
theorem salvage_threshold (t : Table) (now : ℕ) (pkt : List ℕ)
    (fid idx tot : ℕ) (data : List ℕ) (slots0 : List (List ℕ)) (ts0 : ℕ)
    (hp : parseHeader pkt = some (fid, idx, tot, data))
    (he : (tlookup (evict t now) fid).getD (List.replicate tot [], now) = (slots0, ts0))
    (hidx : idx < slots0.length) :
    (¬ 1 ≤ ratioOf (slots0.set idx data) → c098 < ratioOf (slots0.set idx data) →
      100 ≤ (((slots0.set idx data).filter (fun c => !c.isEmpty)).flatten).length →
      [255, 216].isPrefixOf (((slots0.set idx data).filter (fun c => !c.isEmpty)).flatten)
        = true →
      (recvStep t now pkt).2
        = some (false, ((slots0.set idx data).filter (fun c => !c.isEmpty)).flatten))
    ∧ (ratioOf (slots0.set idx data) ≤ c098 →
      (recvStep t now pkt).2 = none
      ∧ (recvStep t now pkt).1 = tset (evict t now) fid (slots0.set idx data, now)) := by
  constructor
  · intro hni hgt h100 hpre
    have hic : isComplete (slots0.set idx data) = false := by
      rw [isComplete, decide_eq_false hni]
    have hsp : shouldProcess (slots0.set idx data) = true := by
      rw [shouldProcess, hic]
      simp only [Bool.false_or, Bool.and_eq_true, decide_eq_true_eq]
      exact ⟨le_of_lt hgt, hgt⟩
    rw [recvStep_eq t now pkt fid idx tot data hp,
      recvPlace_process t now fid idx tot data slots0 ts0 he hidx hsp]
    simp only [buildEmission, assemble, hic, Bool.false_eq_true, if_false]
    rw [if_pos ⟨h100, hpre, Or.inr (lt_of_not_le hni)⟩]
  · intro hle
    have hlt1 : ratioOf (slots0.set idx data) < 1 := lt_of_le_of_lt hle c098_lt_one
    have hic : isComplete (slots0.set idx data) = false := by
      rw [isComplete, decide_eq_false (not_le.mpr hlt1)]
    have hsp : shouldProcess (slots0.set idx data) = false := by
      rw [shouldProcess, hic, decide_eq_false (not_lt.mpr hle), Bool.and_false,
        Bool.false_or]
    rw [recvStep_eq t now pkt fid idx tot data hp,
      recvPlace_noProcess t now fid idx tot data slots0 ts0 he hidx hsp]
    exact ⟨rfl, rfl⟩

/-! ### C3: send-failure behaviour -/

/-- C3 (amended).  A transient `send_to` failure at chunk index `i` does
not leave the remaining chunks to be sent: the `?` operator on `send_to`
aborts `send_chunked` at the first failing chunk, so exactly the chunks
with index below `i` are transmitted and the error is returned to the
caller (who logs it and continues with the next frame). -/
theorem send_failure_aborts (fail : ℕ → Bool) (data : List ℕ) (fid i : ℕ)
    (hbefore : ∀ k, k < i → fail k = false) (hi : fail i = true)
    (hlt : i < (chunksOf CHUNK_SIZE data).length) :
    sendChunked fail data fid
      = (((withIdx 0 (chunksOf CHUNK_SIZE data)).take i).map
          (fun ic => mkPacket fid ic.1 (totalChunks data.length) ic.2), false) :=
  sendChunked_abort fail data fid i hbefore hi hlt

/-- C3, counterexample to the claim as stated: a payload of 8200 bytes
splits into 2 chunks; with a transient failure on chunk 0 only, the claim
says chunk 1 is still transmitted, but the code transmits nothing and
returns the error. -/
theorem send_failure_aborts_cex :
    (chunksOf CHUNK_SIZE (List.replicate 8200 (0 : ℕ))).length = 2
    ∧ sendChunked (fun j => decide (j = 0)) (List.replicate 8200 (0 : ℕ)) 0
        = ([], false) := by
  have hlen : (chunksOf CHUNK_SIZE (List.replicate 8200 (0 : ℕ))).length = 2 := by
    rw [chunksOf_length _ (by decide), List.length_replicate, CHUNK_SIZE]
  refine ⟨hlen, ?_⟩
  have h := sendChunked_abort (fun j => decide (j = 0)) (List.replicate 8200 (0 : ℕ)) 0 0
    (by omega) (by decide) (by omega)
  rw [h]
  simp only [List.take_zero, List.map_nil]

/-! ### C8 and C10: streaming-loop claims -/

theorem runSrv_stopped (s : SrvState) (h : s.running = false) (evs : List CapResult) :
    runSrv s evs = s := by
  induction evs with
  | nil => rfl
  | cons e evs ih =>
    show runSrv (srvStep s e) evs = s
    rw [show srvStep s e = s by rw [srvStep.eq_def, h]; rfl]
    exact ih

theorem runSrv_fails_lt (k : ℕ) : ∀ s : SrvState, s.running = true →
    s.errors + k < 10 →
    runSrv s (List.replicate k .capFail) = ⟨true, s.errors + k, s.frameId⟩ := by
  induction k with
  | zero =>
    intro s hr _
    obtain ⟨r, e, f⟩ := s
    simp only at hr
    rw [hr]
    rfl
  | succ k ih =>
    intro s hr hk
    rw [List.replicate_succ]
    show runSrv (srvStep s .capFail) (List.replicate k .capFail) = _
    have h10 : ¬ MAX_CONSECUTIVE_ERRORS ≤ s.errors + 1 := by
      rw [MAX_CONSECUTIVE_ERRORS]
      omega
    have hstep : srvStep s .capFail = ⟨true, s.errors + 1, s.frameId⟩ := by
      rw [srvStep, hr]
      simp only [Bool.not_true, Bool.false_eq_true, if_false]
      rw [if_neg h10]
    rw [hstep, ih ⟨true, s.errors + 1, s.frameId⟩ rfl (show s.errors + 1 + k < 10 by omega)]
    have harith : s.errors + 1 + k = s.errors + (k + 1) := by omega
    rw [harith]

theorem runSrv_fails_halt (k : ℕ) : ∀ s : SrvState, s.running = true →
    s.errors < 10 → 10 ≤ s.errors + k →
    runSrv s (List.replicate k .capFail) = ⟨false, 10, s.frameId⟩ := by
  induction k with
  | zero => intro s _ h1 h2; omega
  | succ k ih =>
    intro s hr h1 h2
    rw [List.replicate_succ]
    show runSrv (srvStep s .capFail) (List.replicate k .capFail) = _
    by_cases h9 : s.errors = 9
    · have h10 : MAX_CONSECUTIVE_ERRORS ≤ s.errors + 1 := by
        rw [MAX_CONSECUTIVE_ERRORS]
        omega
      have hstep : srvStep s .capFail = ⟨false, 10, s.frameId⟩ := by
        rw [srvStep, hr]
        simp only [Bool.not_true, Bool.false_eq_true, if_false]
        rw [if_pos h10]
        have h11 : s.errors + 1 = 10 := by omega
        rw [h11]
      rw [hstep, runSrv_stopped _ rfl]
    · have h10 : ¬ MAX_CONSECUTIVE_ERRORS ≤ s.errors + 1 := by
        rw [MAX_CONSECUTIVE_ERRORS]
        omega
      have hstep : srvStep s .capFail = ⟨true, s.errors + 1, s.frameId⟩ := by
        rw [srvStep, hr]
        simp only [Bool.not_true, Bool.false_eq_true, if_false]
        rw [if_neg h10]
      rw [hstep, ih ⟨true, s.errors + 1, s.frameId⟩ rfl
        (show s.errors + 1 < 10 by omega) (show 10 ≤ s.errors + 1 + k by omega)]

/-- C8.  Consecutive-failure stop: from a clean counter, 10 consecutive
capture failures (non-WouldBlock) set `is_running` to false with the loop
processing nothing further; fewer than 10 never stop the loop; a
`WouldBlock` leaves the whole state (counter included) untouched, so
failures separated by `WouldBlock`s still accumulate to the stop; a
successful capture resets the counter to zero. -/
theorem consecutive_failure_stop (s : SrvState) (rest : List CapResult)
    (hr : s.running = true) (he : s.errors = 0) :
    runSrv s (List.replicate 10 .capFail ++ rest) = ⟨false, 10, s.frameId⟩
    ∧ (∀ k, k < 10 → runSrv s (List.replicate k .capFail) = ⟨true, k, s.frameId⟩)
    ∧ runSrv s (List.replicate 5 .capFail ++ .wouldBlock :: List.replicate 5 .capFail)
        = ⟨false, 10, s.frameId⟩
    ∧ (∀ t : SrvState, srvStep t .wouldBlock = t)
    ∧ (∀ t : SrvState, t.running = true →
        ∀ d rc f, (srvStep t (.capOk d rc f)).errors = 0) := by
  have hwb : ∀ t : SrvState, srvStep t .wouldBlock = t := by
    intro t
    rw [srvStep]
    split <;> rfl
  refine ⟨?_, ?_, ?_, hwb, ?_⟩
  · rw [runSrv, List.foldl_append, ← runSrv, ← runSrv,
      runSrv_fails_halt 10 s hr (by omega) (by omega), runSrv_stopped _ rfl]
  · intro k hk
    rw [runSrv_fails_lt k s hr (by omega), he]
    simp only [Nat.zero_add]
  · rw [runSrv, List.foldl_append, ← runSrv, ← runSrv,
      runSrv_fails_lt 5 s hr (by omega)]
    show runSrv (srvStep _ .wouldBlock) _ = _
    rw [hwb]
    rw [runSrv_fails_halt 5 ⟨true, s.errors + 5, s.frameId⟩ rfl
      (show s.errors + 5 < 10 by omega) (show 10 ≤ s.errors + 5 + 5 by omega)]
  · intro t ht d rc f
    rw [srvStep, ht]
    simp only [Bool.not_true, Bool.false_eq_true, if_false]
    rcases hpl : payloadOf d rc with _ | p
    · rfl
    · by_cases hs : (sendChunked f p t.frameId).2 <;> simp [hs]

/-- C10.  Frame-id advance policy: `frame_id` advances by wrapping
increment exactly when `send_chunked` returns `Ok` for the whole frame; it
is unchanged on `WouldBlock`, on a capture error, on a degenerate payload
(< 100 bytes), on recompression failure of an oversized payload, and on a
chunk-send failure — the next attempt reuses the same id. -/
theorem frame_id_advance (s : SrvState) (hr : s.running = true) :
    (srvStep s .wouldBlock).frameId = s.frameId
    ∧ (srvStep s .capFail).frameId = s.frameId
    ∧ (∀ d rc f, payloadOf d rc = none → (srvStep s (.capOk d rc f)).frameId = s.frameId)
    ∧ (∀ d rc f p, payloadOf d rc = some p → (sendChunked f p s.frameId).2 = false →
        (srvStep s (.capOk d rc f)).frameId = s.frameId)
    ∧ (∀ d rc f p, payloadOf d rc = some p → (sendChunked f p s.frameId).2 = true →
        (srvStep s (.capOk d rc f)).frameId = (s.frameId + 1) % 2 ^ 32)
    ∧ (∀ d rc, d.length < 100 → payloadOf d rc = none)
    ∧ (∀ d : List ℕ, 500000 < d.length → payloadOf d none = none) := by
  refine ⟨?_, ?_, ?_, ?_, ?_, ?_, ?_⟩
  · rw [srvStep, hr]
    simp
  · rw [srvStep, hr]
    simp only [Bool.not_true, Bool.false_eq_true, if_false, MAX_CONSECUTIVE_ERRORS]
    by_cases h : 10 ≤ s.errors + 1 <;> simp [h]
  · intro d rc f hpl
    rw [srvStep, hr]
    simp only [Bool.not_true, Bool.false_eq_true, if_false]
    rw [hpl]
  · intro d rc f p hpl hsend
    rw [srvStep, hr]
    simp only [Bool.not_true, Bool.false_eq_true, if_false]
    rw [hpl]
    simp [hsend]
  · intro d rc f p hpl hsend
    rw [srvStep, hr]
    simp only [Bool.not_true, Bool.false_eq_true, if_false]
    rw [hpl]
    simp [hsend]
  · intro d rc hd
    rw [payloadOf, if_pos hd]
  · intro d hd
    rw [payloadOf, if_neg (by omega), if_pos hd]

/-! ### C5: pacer rate bound -/

/-- C5.  Pacer rate bound: for a pacer constructed with
`min_fps ≤ default_fps ≤ max_fps` (u32 bounds), `target_fps` stays within
`[min_fps, max_fps]` after every sequence of `adjust_for_packet_loss` and
`adjust_for_slow_frame` calls; and each single adjustment either leaves
`target_fps` unchanged or moves it by one bounded multiplicative step
(`×0.8`, `×0.9` or `×1.1` in `f32`, truncated to u32, then clamped), never
instantaneously to an extreme. -/
theorem pacer_rate_bound (d mn mx : ℕ) (h1 : mn ≤ d) (h2 : d ≤ mx)
    (hmx : mx < 2 ^ 32) (ops : List PacerOp) :
    (mn ≤ (applyOps (Pacer.new d mn mx) ops).fps
      ∧ (applyOps (Pacer.new d mn mx) ops).fps ≤ mx)
    ∧ (∀ (p : Pacer) (op : PacerOp),
        (applyOp p op).fps = p.fps
        ∨ (applyOp p op).fps = max (fmul32 p.fps c08) p.minFps
        ∨ (applyOp p op).fps = max (fmul32 p.fps c09) p.minFps
        ∨ (applyOp p op).fps = min (fmul32 p.fps c11) p.maxFps) := by
  constructor
  · have hinv := applyOps_preserves mn mx (le_trans h1 h2) hmx ops (Pacer.new d mn mx)
      ⟨h1, h2, rfl, rfl⟩
    exact ⟨hinv.1, hinv.2.1⟩
  · intro p op
    cases op with
    | loss r =>
      rw [applyOp, adjustLoss]
      split_ifs
      · right; left; rfl
      · right; right; right; rfl
      · left; rfl
    | slow ms =>
      simp only [applyOp, adjustSlow]
      split_ifs
      · right; right; left; rfl
      · left; rfl
      · left; rfl

theorem pacer_rate_bound_w :
    10 ≤ (applyOps (Pacer.new 30 10 60) [PacerOp.loss (2 / 10)]).fps
    ∧ (applyOps (Pacer.new 30 10 60) [PacerOp.loss (2 / 10)]).fps ≤ 60 :=
  (pacer_rate_bound 30 10 60 (by omega) (by omega) (by norm_num) [PacerOp.loss (2 / 10)]).1

/-! ### C9: start/stop -/

/-- C9.  Start/stop behaviour at the failing input: stopping with no
handle in the slot is a no-op, as claimed; but starting twice without an
intervening stop leaks the first streaming loop — after two starts the
first loop is still running, the slot no longer reaches it, and a
subsequent stop stops only the second loop while the first keeps running
with no way left to stop it. -/
theorem start_twice_leaks :
    (∀ s : Shell, s.slot = none → stopCmd s = s)
    ∧ loopRunning (startCmd (startCmd ⟨[], none⟩)) 0 = true
    ∧ (startCmd (startCmd ⟨[], none⟩)).slot ≠ some 0
    ∧ loopRunning (stopCmd (startCmd (startCmd ⟨[], none⟩))) 0 = true := by
  refine ⟨?_, by decide, by decide, by decide⟩
  intro s hs
  obtain ⟨fl, sl⟩ := s
  have h : sl = none := hs
  subst h
  rfl

theorem start_twice_leaks_w : stopCmd ⟨[true], none⟩ = (⟨[true], none⟩ : Shell) :=
  start_twice_leaks.1 ⟨[true], none⟩ rfl

/-! ### Witnesses -/

theorem chunking_roundtrip_w :
    (sendPackets [7] 3).length = (([7] : List ℕ).length + CHUNK_SIZE - 1) / CHUNK_SIZE
    ∧ (sendPackets [7] 3).map parseHeader
        = (withIdx 0 (chunksOf CHUNK_SIZE [7])).map
            (fun ic => some (3, ic.1, totalChunks ([7] : List ℕ).length, ic.2))
    ∧ ((sendPackets [7] 3).map (fun p => p.drop 12)).flatten = [7] :=
  chunking_roundtrip [7] 3 (by decide) (by decide)

theorem send_failure_aborts_w :
    (fun j => decide (j = 0)) 0 = true
    ∧ sendChunked (fun j => decide (j = 0)) (List.replicate 100 9) 4
        = (((withIdx 0 (chunksOf CHUNK_SIZE (List.replicate 100 9))).take 0).map
            (fun ic => mkPacket 4 ic.1 (totalChunks (List.replicate 100 9).length) ic.2),
          false) :=
  ⟨by decide,
    send_failure_aborts (fun j => decide (j = 0)) (List.replicate 100 9) 4 0
      (by omega) (by decide) (by decide)⟩

theorem invalid_index_effect_w :
    recvStep [(3, (List.replicate 2 [7], 200))] 600 (mkPacket 3 5 2 [9])
      = (tset (evict [(3, (List.replicate 2 [7], 200))] 600) 3
          (List.replicate 2 [7], 600), none) :=
  invalid_index_effect [(3, (List.replicate 2 [7], 200))] 600 (mkPacket 3 5 2 [9])
    3 5 2 [9] (List.replicate 2 [7]) 200 (by decide) (by decide) (by decide)

theorem staleness_eviction_w :
    601 - 600 < FRAME_TIMEOUT_MS
    ∧ tlookup (recvStep w7Table 601 (mkPacket 3 7 1 [5])).1 9 = none :=
  ⟨(staleness_eviction w7Table 601 (mkPacket 3 7 1 [5]) 3 7 1 [5] (by decide)
      (by decide)).1 4 ([[1]], 600) (by decide),
    (staleness_eviction w7Table 601 (mkPacket 3 7 1 [5]) 3 7 1 [5] (by decide)
      (by decide)).2 9 [[], []] 0 (by decide) (by decide) (by decide)⟩

theorem consecutive_failure_stop_w :
    runSrv ⟨true, 0, 5⟩ (List.replicate 10 .capFail ++ []) = ⟨false, 10, 5⟩
    ∧ runSrv ⟨true, 0, 5⟩ (List.replicate 9 .capFail) = ⟨true, 9, 5⟩ :=
  ⟨(consecutive_failure_stop ⟨true, 0, 5⟩ [] rfl rfl).1,
    (consecutive_failure_stop ⟨true, 0, 5⟩ [] rfl rfl).2.1 9 (by omega)⟩

theorem frame_id_advance_w :
    payloadOf (List.replicate 100 9) none = some (List.replicate 100 9)
    ∧ (sendChunked (fun _ => false) (List.replicate 100 9) 41).2 = true
    ∧ (srvStep ⟨true, 2, 41⟩
        (.capOk (List.replicate 100 9) none (fun _ => false))).frameId = (41 + 1) % 2 ^ 32 :=
  ⟨by decide, by decide,
    (frame_id_advance ⟨true, 2, 41⟩ rfl).2.2.2.2.1 (List.replicate 100 9) none
      (fun _ => false) (List.replicate 100 9) (by decide) (by decide)⟩

/-- `99/100` rounds in `f32` strictly above the `0.98` threshold. -/
theorem ratio_99_100 : ratioOf wSlots1 = 16609444 / 2 ^ 24 := by
  have hc : countFilled wSlots1 = 99 := by decide
  have hl : wSlots1.length = 100 := by decide
  rw [ratioOf, hc, hl, natF32_exact 99 (by omega) (by norm_num),
    natF32_exact 100 (by omega) (by norm_num),
    show ((99 : ℕ) : ℚ) = (99 : ℚ) by norm_num,
    show ((100 : ℕ) : ℚ) = (100 : ℚ) by norm_num]
  have he : qlog2 ((99 : ℚ) / 100) = -1 := by
    apply qlog2_eq <;> norm_num
  have hm : rhe ((99 : ℚ) / 100 * 2 ^ ((23 : ℤ) - (-1))) = 16609444 := by
    have h24 : ((23 : ℤ) - (-1)) = (24 : ℤ) := by norm_num
    have h2 : ((2 : ℚ)) ^ ((24 : ℤ)) = 16777216 := by norm_num
    rw [h24, h2, rhe_eq_ceil _ 16609443 (by rw [Int.floor_eq_iff]; norm_num) (by norm_num)]
    norm_num
  rw [rnd32_eq _ (-1) 16609444 (by norm_num) he hm]
  norm_num

set_option maxRecDepth 4000 in
theorem salvage_threshold_w :
    c098 < ratioOf (wSlots0.set 98 [255, 216])
    ∧ (recvStep wTable 0 wPkt).2
        = some (false, ((wSlots0.set 98 [255, 216]).filter (fun c => !c.isEmpty)).flatten) := by
  have hset : wSlots0.set 98 [255, 216] = wSlots1 := by decide
  have hgt : c098 < ratioOf (wSlots0.set 98 [255, 216]) := by
    rw [hset, ratio_99_100, c098_val]
    norm_num
  refine ⟨hgt, ?_⟩
  exact (salvage_threshold wTable 0 wPkt 0 98 100 [255, 216] wSlots0 0 (by decide)
    (by decide) (by decide)).1
    (by rw [hset, ratio_99_100]; norm_num) hgt (by decide) (by decide)

theorem ratio_1_1 : ratioOf [wd100] = 1 := by
  have hc : countFilled [wd100] = 1 := by decide
  have hl : ([wd100] : List (List ℕ)).length = 1 := by decide
  rw [ratioOf, hc, hl, natF32_exact 1 (by omega) (by norm_num),
    show ((1 : ℕ) : ℚ) = (1 : ℚ) by norm_num, div_one]
  have he : qlog2 (1 : ℚ) = 0 := by
    apply qlog2_eq <;> norm_num
  exact rnd32_exact 1 0 8388608 (by norm_num) he (by norm_num)

theorem validation_gate_w :
    shouldProcess ((List.replicate 1 ([] : List ℕ)).set 0 wd100) = true
    ∧ (recvStep [] 0 (mkPacket 3 0 1 wd100)).2
        = (if 100 ≤ (assemble ((List.replicate 1 ([] : List ℕ)).set 0 wd100)).length
              ∧ [255, 216].isPrefixOf
                  (assemble ((List.replicate 1 ([] : List ℕ)).set 0 wd100))
              ∧ ([255, 217].isSuffixOf
                    (assemble ((List.replicate 1 ([] : List ℕ)).set 0 wd100))
                  ∨ ratioOf ((List.replicate 1 ([] : List ℕ)).set 0 wd100) < 1)
            then some (isComplete ((List.replicate 1 ([] : List ℕ)).set 0 wd100),
              assemble ((List.replicate 1 ([] : List ℕ)).set 0 wd100))
            else none)
    ∧ tlookup (recvStep [] 0 (mkPacket 3 0 1 wd100)).1 3 = none := by
  have hset : (List.replicate 1 ([] : List ℕ)).set 0 wd100 = [wd100] := by decide
  have hsp : shouldProcess ((List.replicate 1 ([] : List ℕ)).set 0 wd100) = true := by
    rw [hset, shouldProcess, isComplete, ratio_1_1,
      decide_eq_true (le_refl (1 : ℚ)), Bool.true_or]
  have h := validation_gate [] 0 (mkPacket 3 0 1 wd100) 3 0 1 wd100
    (List.replicate 1 []) 0 (by decide) (by decide) (by decide) hsp
  exact ⟨hsp, h.1, h.2⟩

end UdpImage
